import Mathlib

/-!
Verification of the Supermodel ROM loading core (`ROMLoad.cpp`).

This file gives a shallow embedding of the ROM loading functions of
`Src/ROMLoad.cpp` and proves properties of them.  Byte buffers are modelled
as total functions `Nat → Nat`; the sentinel-terminated C arrays (game list,
ROM list, region map) are modelled as Lean lists holding exactly the entries
before the sentinel; loops whose termination depends on runtime data are
modelled with explicit fuel, returning `none` when the fuel runs out (which,
for the fuel amounts used, happens exactly when the C loop diverges).
-/

namespace ROMLoad

/-- A byte buffer, modelled as a total function from byte index to value. -/
abbrev Buf := Nat → Nat

/-- Model of `memcpy(&dest[destOffset], src, len)`: overwrite `len` bytes of `dest`
starting at `destOffset` with the first `len` bytes of `src`. -/
def memcpyAt (dest : Buf) (destOffset : Nat) (src : Buf) (len : Nat) : Buf :=
  fun i => if destOffset ≤ i ∧ i < destOffset + len then src (i - destOffset) else dest i

/-- Embedding of `CopyRegion(dest, destOffset, destSize, src, srcSize)` from `ROMLoad.cpp`:
repeatedly copy the source into the destination, trimming the final copy so it
does not overrun `destSize`.  The C loop `while (destOffset < destSize)` is
given explicit `fuel`; `none` means the fuel was exhausted with the loop still
running (the C code would still be looping). -/
def CopyRegion (fuel : Nat) (dest : Buf) (destOffset destSize : Nat) (src : Buf)
    (srcSize : Nat) : Option Buf :=
  match fuel with
  | 0 => if destOffset < destSize then none else some dest
  | f + 1 =>
    if destOffset < destSize then
      let len := if destSize ≤ destOffset + srcSize then destSize - destOffset else srcSize
      CopyRegion f (memcpyAt dest destOffset src len) (destOffset + len) destSize src len
    else some dest

theorem copyRegion_stop (fuel : Nat) (dest : Buf) (destOffset destSize : Nat) (src : Buf)
    (srcSize : Nat) (h : destSize ≤ destOffset) :
    CopyRegion fuel dest destOffset destSize src srcSize = some dest := by
  cases fuel <;> simp [CopyRegion, Nat.not_lt.mpr h]

theorem copyRegion_progress (destSize : Nat) (src : Buf) :
    ∀ fuel dest destOffset srcSize, 0 < srcSize → destSize ≤ destOffset + fuel →
      ∃ d, CopyRegion fuel dest destOffset destSize src srcSize = some d := by
  intro fuel
  induction fuel with
  | zero =>
    intro dest destOffset srcSize _ hle
    exact ⟨dest, copyRegion_stop 0 dest destOffset destSize src srcSize (by omega)⟩
  | succ f ih =>
    intro dest destOffset srcSize hs hle
    by_cases h : destOffset < destSize
    · rw [CopyRegion, if_pos h]
      by_cases hc : destSize ≤ destOffset + srcSize
      · simp only [if_pos hc]
        exact ih _ _ _ (by omega) (by omega)
      · simp only [if_neg hc]
        exact ih _ _ _ hs (by omega)
    · exact ⟨dest, copyRegion_stop _ dest destOffset destSize src srcSize (by omega)⟩

theorem copyRegion_tile_aux (N k : Nat) (src : Buf) (hk : 0 < k) :
    ∀ fuel dest destOffset d, destOffset % k = 0 →
      (∀ i, i < destOffset → dest i = src (i % k)) →
      CopyRegion fuel dest destOffset N src k = some d →
      ∀ i, i < N → d i = src (i % k) := by
  intro fuel
  induction fuel with
  | zero =>
    intro dest destOffset d _ hinv hrun i hi
    by_cases h : destOffset < N
    · simp [CopyRegion, h] at hrun
    · rw [CopyRegion, if_neg h] at hrun
      cases hrun
      exact hinv i (by omega)
  | succ f ih =>
    intro dest destOffset d hmod hinv hrun i hi
    by_cases h : destOffset < N
    · rw [CopyRegion, if_pos h] at hrun
      by_cases hc : N ≤ destOffset + k
      · -- final, trimmed iteration: the copy reaches exactly `N` and stops
        simp only [if_pos hc] at hrun
        rw [Nat.add_sub_cancel' (by omega), copyRegion_stop f _ N N src _ (Nat.le_refl N)]
          at hrun
        cases hrun
        by_cases hlo : destOffset ≤ i
        · have hr : i - destOffset < k := by omega
          have : i % k = i - destOffset := by
            conv_lhs => rw [show i = destOffset + (i - destOffset) by omega]
            rw [Nat.add_mod, hmod, Nat.zero_add, Nat.mod_eq_of_lt hr, Nat.mod_eq_of_lt hr]
          rw [memcpyAt, if_pos ⟨hlo, by omega⟩, this]
        · rw [memcpyAt, if_neg (by omega)]
          exact hinv i (by omega)
      · -- full copy of `k` bytes, continue with the next tile
        simp only [if_neg hc] at hrun
        refine ih _ _ _ ?_ ?_ hrun i hi
        · rw [Nat.add_mod_right]; exact hmod
        · intro j hj
          by_cases hlo : destOffset ≤ j
          · have hr : j - destOffset < k := by omega
            have hjk : j % k = j - destOffset := by
              conv_lhs => rw [show j = destOffset + (j - destOffset) by omega]
              rw [Nat.add_mod, hmod, Nat.zero_add, Nat.mod_eq_of_lt hr, Nat.mod_eq_of_lt hr]
            rw [memcpyAt, if_pos ⟨hlo, by omega⟩, hjk]
          · rw [memcpyAt, if_neg (by omega)]
            exact hinv j (by omega)
    · rw [CopyRegion, if_neg h] at hrun
      cases hrun
      exact hinv i (by omega)

/-- C3: `TileFill(dest, 0, N, src, k)` (`CopyRegion` with `destOffset = 0`)
with `0 < k ≤ N` terminates and leaves every destination byte `i < N` equal
to `src (i % k)`: the source tiled `⌈N/k⌉` times, truncated to `N` bytes. -/
theorem tileFill_tiles (N k : Nat) (dest src : Buf) (hk : 0 < k) (hkN : k ≤ N) :
    ∃ d, CopyRegion N dest 0 N src k = some d ∧ ∀ i, i < N → d i = src (i % k) := by
  obtain ⟨d, hd⟩ := copyRegion_progress N src N dest 0 k hk (by omega)
  exact ⟨d, hd, copyRegion_tile_aux N k src hk N dest 0 d (Nat.zero_mod k)
    (fun i hi => absurd hi (Nat.not_lt_zero i)) hd⟩

theorem tileFill_tiles_witness :
    0 < 2 ∧ 2 ≤ 5 ∧
      ∃ d, CopyRegion 5 (fun _ => 9 : Buf) 0 5 (fun i => i + 1 : Buf) 2 = some d ∧
        ∀ i, i < 5 → d i = (fun i => i + 1 : Buf) (i % 2) := by
  refine ⟨by decide, by decide, ?_⟩
  obtain ⟨d, hd, hp⟩ :=
    tileFill_tiles 5 2 (fun _ => 9 : Buf) (fun i => i + 1 : Buf) (by decide) (by decide)
  exact ⟨d, hd, hp⟩

theorem copyRegion_no_progress (destSize : Nat) (src : Buf) :
    ∀ fuel dest destOffset, destOffset < destSize →
      CopyRegion fuel dest destOffset destSize src 0 = none := by
  intro fuel
  induction fuel with
  | zero => intro dest destOffset h; simp [CopyRegion, h]
  | succ f ih =>
    intro dest destOffset h
    rw [CopyRegion, if_pos h, if_neg (by omega)]
    exact ih _ destOffset h

/-- C9: with `srcSize > 0` the `CopyRegion` loop terminates (fuel `destSize`
always suffices), while with `srcSize = 0` and the loop entered
(`destOffset < destSize`) it makes no progress: no amount of fuel completes it. -/
theorem copyRegion_termination (dest src : Buf) (destOffset destSize : Nat) :
    (∀ s, 0 < s → ∃ d, CopyRegion destSize dest destOffset destSize src s = some d) ∧
    (destOffset < destSize → ∀ fuel, CopyRegion fuel dest destOffset destSize src 0 = none) := by
  constructor
  · intro s hs
    exact copyRegion_progress destSize src destSize dest destOffset s hs (by omega)
  · intro h fuel
    exact copyRegion_no_progress destSize src fuel dest destOffset h

theorem copyRegion_termination_witness :
    (∃ d, CopyRegion 4 (fun _ => 0 : Buf) 0 4 (fun _ => 1 : Buf) 2 = some d) ∧
    (∀ fuel, CopyRegion fuel (fun _ => 0 : Buf) 0 4 (fun _ => 1 : Buf) 0 = none) :=
  ⟨(copyRegion_termination (fun _ => 0 : Buf) (fun _ => 1 : Buf) 0 4).1 2 (by decide),
   (copyRegion_termination (fun _ => 0 : Buf) (fun _ => 1 : Buf) 0 4).2 (by decide)⟩

/-- Swap the pair of bytes at positions `i` and `i+1` of a buffer. -/
def swapAt (buf : Buf) (i : Nat) : Buf :=
  fun j => if j = i then buf (i + 1) else if j = i + 1 then buf i else buf j

/-- The loop body of `ByteSwap(buf, size)`: `for (i = 0; i < size; i += 2)`
swap `buf[i]` and `buf[i+1]`, here starting from an arbitrary index `i`. -/
def byteSwapFrom (buf : Buf) (i size : Nat) : Buf :=
  if h : i < size then byteSwapFrom (swapAt buf i) (i + 2) size else buf
termination_by size - i
decreasing_by omega

/-- Embedding of `ByteSwap(buf, size)` from `ROMLoad.cpp`: swap each adjacent pair of
bytes, starting at index 0. -/
def ByteSwap (buf : Buf) (size : Nat) : Buf := byteSwapFrom buf 0 size

theorem swapAt_swapAt (buf : Buf) (i : Nat) : swapAt (swapAt buf i) i = buf := by
  funext j
  simp only [swapAt]
  split_ifs with h1 h2 <;> first | rfl | omega | (congr 1; omega)

theorem swapAt_comm (buf : Buf) (i j : Nat) (h : i + 1 < j) :
    swapAt (swapAt buf i) j = swapAt (swapAt buf j) i := by
  funext x
  simp only [swapAt]
  split_ifs <;> first | rfl | omega | (congr 1; omega)

theorem byteSwapFrom_step (buf : Buf) (i size : Nat) (h : i < size) :
    byteSwapFrom buf i size = byteSwapFrom (swapAt buf i) (i + 2) size := by
  rw [byteSwapFrom]
  rw [dif_pos h]

theorem byteSwapFrom_done (buf : Buf) (i size : Nat) (h : size ≤ i) :
    byteSwapFrom buf i size = buf := by
  rw [byteSwapFrom]
  rw [dif_neg (by omega)]

theorem byteSwapFrom_swapAt_comm (size : Nat) :
    ∀ n j buf i, size ≤ j + n → i + 1 < j →
      byteSwapFrom (swapAt buf i) j size = swapAt (byteSwapFrom buf j size) i := by
  intro n
  induction n with
  | zero =>
    intro j buf i hle _
    rw [byteSwapFrom_done _ _ _ (by omega), byteSwapFrom_done _ _ _ (by omega)]
  | succ n ih =>
    intro j buf i hle hij
    by_cases h : j < size
    · rw [byteSwapFrom_step _ _ _ h, swapAt_comm buf i j hij,
        ih (j + 2) (swapAt buf j) i (by omega) (by omega), byteSwapFrom_step buf _ _ h]
    · rw [byteSwapFrom_done _ _ _ (by omega), byteSwapFrom_done _ _ _ (by omega)]

theorem byteSwapFrom_involution (size : Nat) :
    ∀ n i buf, size ≤ i + n → byteSwapFrom (byteSwapFrom buf i size) i size = buf := by
  intro n
  induction n with
  | zero =>
    intro i buf hle
    rw [byteSwapFrom_done _ _ _ (by omega), byteSwapFrom_done _ _ _ (by omega)]
  | succ n ih =>
    intro i buf hle
    by_cases h : i < size
    · rw [byteSwapFrom_step buf _ _ h, byteSwapFrom_step _ _ _ h,
        ← byteSwapFrom_swapAt_comm size (n + 1) (i + 2) (swapAt buf i) i (by omega) (by omega),
        swapAt_swapAt]
      exact ih (i + 2) buf (by omega)
    · rw [byteSwapFrom_done _ _ _ (by omega), byteSwapFrom_done _ _ _ (by omega)]

/-- C8: `ByteSwap` is an involution — applying it twice with the same size
returns every buffer to its original contents. -/
theorem byteSwap_involution (buf : Buf) (size : Nat) :
    ByteSwap (ByteSwap buf size) size = buf :=
  byteSwapFrom_involution size size 0 buf (by omega)

theorem byteSwap_involution_witness :
    ByteSwap (ByteSwap (fun i => i * 3 : Buf) 6) 6 = (fun i => i * 3 : Buf) :=
  byteSwap_involution (fun i => i * 3 : Buf) 6

/-- One pass of the inner placement loop of `LoadROM`:
`for (j = 0; j < groupSize; j++) ptr[destIdx+j] = buf[srcIdx++]`. -/
def writeGroup (dest : Buf) (destIdx : Nat) (src : Buf) (srcIdx groupSize : Nat) : Buf :=
  fun idx =>
    if destIdx ≤ idx ∧ idx < destIdx + groupSize then src (srcIdx + (idx - destIdx))
    else dest idx

/-- The placement loop of `LoadROM`: starting at `destIdx = offset`, copy
`groupSize` consecutive source bytes, advance the destination by `stride`,
until `srcIdx` reaches `fileSize`.  The C loop only checks `srcIdx` at group
boundaries, so it is given explicit `fuel`; `none` means the fuel ran out with
the loop still running (with `groupSize = 0` and `fileSize > 0` the C loop
never terminates). -/
def placeROM (fuel : Nat) (dest src : Buf) (destIdx srcIdx fileSize groupSize stride : Nat) :
    Option Buf :=
  match fuel with
  | 0 => if srcIdx < fileSize then none else some dest
  | f + 1 =>
    if srcIdx < fileSize then
      placeROM f (writeGroup dest destIdx src srcIdx groupSize) src (destIdx + stride)
        (srcIdx + groupSize) fileSize groupSize stride
    else some dest

theorem placeROM_stop (fuel : Nat) (dest src : Buf) (destIdx srcIdx fileSize groupSize stride : Nat)
    (h : fileSize ≤ srcIdx) :
    placeROM fuel dest src destIdx srcIdx fileSize groupSize stride = some dest := by
  cases fuel <;> simp [placeROM, Nat.not_lt.mpr h]

/-- C6: with `groupSize = stride = fileSize = L`, the placement loop is a
single contiguous copy of the `L` source bytes to `dest[offset .. offset+L)`. -/
theorem place_contiguous (fuel : Nat) (dest src : Buf) (offset L : Nat) :
    placeROM (fuel + 1) dest src offset 0 L L L = some (memcpyAt dest offset src L) := by
  cases L with
  | zero =>
    rw [placeROM, if_neg (by omega)]
    congr 1
    funext i
    rw [memcpyAt, if_neg (by omega)]
  | succ L =>
    rw [placeROM, if_pos (by omega),
      placeROM_stop fuel _ src (offset + (L + 1)) (0 + (L + 1)) (L + 1) (L + 1) (L + 1) (by omega)]
    congr 1
    funext i
    simp only [writeGroup, memcpyAt, Nat.zero_add]

theorem place_contiguous_witness :
    placeROM 3 (fun _ => 0 : Buf) (fun i => i + 5 : Buf) 10 0 2 2 2 =
      some (memcpyAt (fun _ => 0 : Buf) 10 (fun i => i + 5 : Buf) 2) :=
  place_contiguous 2 (fun _ => 0 : Buf) (fun i => i + 5 : Buf) 10 2

theorem placeROM_interleave_aux (src : Buf) (L : Nat) :
    ∀ n dest destIdx srcIdx, srcIdx + n = L →
      ∃ d, placeROM n dest src destIdx srcIdx L 1 2 = some d ∧
        (∀ i, srcIdx ≤ i → i < L → d (destIdx + 2 * (i - srcIdx)) = src i) ∧
        (∀ idx, (∀ i, srcIdx ≤ i → i < L → idx ≠ destIdx + 2 * (i - srcIdx)) →
          d idx = dest idx) := by
  intro n
  induction n with
  | zero =>
    intro dest destIdx srcIdx hn
    refine ⟨dest, placeROM_stop 0 dest src destIdx srcIdx L 1 2 (by omega), ?_, ?_⟩
    · intro i h1 h2; omega
    · intro idx _; rfl
  | succ n ih =>
    intro dest destIdx srcIdx hn
    obtain ⟨d, hd, h1, h2⟩ := ih (writeGroup dest destIdx src srcIdx 1) (destIdx + 2)
      (srcIdx + 1) (by omega)
    refine ⟨d, ?_, ?_, ?_⟩
    · rw [placeROM, if_pos (by omega)]; exact hd
    · intro i hi1 hi2
      rcases Nat.eq_or_lt_of_le hi1 with heq | hlt
      · have e1 : destIdx + 2 * (i - srcIdx) = destIdx := by omega
        rw [e1, h2 destIdx (by intro i' hi1' hi2'; omega), writeGroup,
          if_pos ⟨Nat.le_refl _, by omega⟩]
        congr 1
        omega
      · have e1 : destIdx + 2 * (i - srcIdx) = (destIdx + 2) + 2 * (i - (srcIdx + 1)) := by
          omega
        rw [e1]
        exact h1 i (by omega) hi2
    · intro idx hidx
      rw [h2 idx (by intro i hi1 hi2; have := hidx i (by omega) hi2; omega), writeGroup,
        if_neg ?_]
      have := hidx srcIdx (Nat.le_refl _) (by omega)
      omega

/-- C7: with `groupSize = 1` and `stride = 2`, placement writes source byte
`i` to destination index `offset + 2*i` for every `i < L`, and destination
bytes at odd distance from `offset`, or outside `[offset, offset + 2*L)`,
keep their previous values. -/
theorem place_interleaved (dest src : Buf) (offset L : Nat) :
    ∃ d, placeROM L dest src offset 0 L 1 2 = some d ∧
      (∀ i, i < L → d (offset + 2 * i) = src i) ∧
      (∀ idx, idx < offset ∨ offset + 2 * L ≤ idx ∨ (idx - offset) % 2 = 1 →
        d idx = dest idx) := by
  obtain ⟨d, hd, h1, h2⟩ := placeROM_interleave_aux src L L dest offset 0 (by omega)
  refine ⟨d, hd, ?_, ?_⟩
  · intro i hi
    have := h1 i (Nat.zero_le i) hi
    rwa [Nat.sub_zero] at this
  · intro idx hidx
    refine h2 idx ?_
    intro i _ hi heq
    rw [Nat.sub_zero] at heq
    omega

theorem place_interleaved_witness :
    ∃ d, placeROM 2 (fun _ => 7 : Buf) (fun i => i + 10 : Buf) 1 0 2 1 2 = some d ∧
      d 1 = 10 ∧ d 3 = 11 ∧ d 0 = 7 ∧ d 2 = 7 ∧ d 5 = 7 := by
  obtain ⟨d, hd, h1, h2⟩ := place_interleaved (fun _ => 7 : Buf) (fun i => i + 10 : Buf) 1 2
  refine ⟨d, hd, h1 0 (by decide), h1 1 (by decide), ?_, ?_, ?_⟩
  · exact h2 0 (by omega)
  · exact h2 2 (by omega)
  · exact h2 5 (by omega)

/-- One entry of the `ROMInfo` catalog tables (`Game->ROM`), minus the
terminating sentinel: the lists below hold exactly the entries before it. -/
structure ROMInfo where
  region : String
  offset : Nat
  fileSize : Nat
  crc : Nat
  stride : Nat
  byteSwap : Bool
  groupSize : Nat
  file : String
deriving DecidableEq, Inhabited

/-- One entry of the sentinel-terminated `GameInfo` catalog (`GameList`). -/
structure GameInfo where
  id : String
  title : String
  ROM : List ROMInfo
deriving DecidableEq, Inhabited

/-- One file inside the ZIP archive: its metadata (`crc`, uncompressed
`size`), the bytes actually produced by decompression (`data`), whether
`unzGetCurrentFileInfo` succeeds for it (`infoOk`), and whether the reader
reports `UNZ_CRCERROR` on close (`crcErr`). -/
structure ZipEntry where
  infoOk : Bool
  crc : Nat
  size : Nat
  data : List Nat
  crcErr : Bool
deriving DecidableEq, Inhabited

/-- The sentinel-terminated `ROMMap`: region names paired with the
caller-owned destination buffers they are bound to. -/
abbrev ROMMap := List (String × Buf)

/-- The diagnostics emitted through `ErrorLog`, tagged by the data the C
format strings interpolate. -/
inductive Diag where
  | unidentified
  | contamination
  | missingImage (idx : Nat)
  | sizeMismatch (file : String)
  | readError (file : String)
  | crcWarning (file : String)
  | noMapping (region : String)
  | failedToLoad (idx : Nat)
deriving DecidableEq

/-- The loop of `FindROMByCRCInGame`: scan a ROM list for the first entry
with the given CRC, returning its index (`j` is the index of the head). -/
def findROMIdx : List ROMInfo → Nat → Nat → Option Nat
  | [], _, _ => none
  | r :: rest, crc, j => if crc = r.crc then some j else findROMIdx rest crc (j + 1)

/-- Embedding of `FindROMByCRCInGame(…, Game, crc)`: index of the first ROM of `Game`
whose catalog CRC equals `crc`. -/
def FindROMByCRCInGame (Game : GameInfo) (crc : Nat) : Option Nat :=
  findROMIdx Game.ROM crc 0

/-- The catalog scan loop of `FindROMByCRC`: try each game in order (`i` is
the index of the head game), returning the first (game index, ROM index) hit. -/
def findGameIdx : List GameInfo → Nat → Nat → Option (Nat × Nat)
  | [], _, _ => none
  | G :: rest, crc, i =>
    match FindROMByCRCInGame G crc with
    | some j => some (i, j)
    | none => findGameIdx rest crc (i + 1)

/-- Embedding of `FindROMByCRC(…, GameList, TryGame, crc)`: search `TryGame` (an index
into `GameList`, standing for the C pointer) first if supplied, then the
whole catalog. -/
def FindROMByCRC (GameList : List GameInfo) (TryGame : Option Nat) (crc : Nat) :
    Option (Nat × Nat) :=
  match TryGame with
  | some t =>
    match GameList[t]? with
    | some G =>
      match FindROMByCRCInGame G crc with
      | some j => some (t, j)
      | none => findGameIdx GameList crc 0
    | none => findGameIdx GameList crc 0
  | none => findGameIdx GameList crc 0

theorem findROMIdx_bounds :
    ∀ (l : List ROMInfo) (crc j i : Nat), findROMIdx l crc j = some i → j ≤ i ∧ i < j + l.length := by
  intro l
  induction l with
  | nil => intro crc j i h; simp [findROMIdx] at h
  | cons r rest ih =>
    intro crc j i h
    rw [findROMIdx] at h
    by_cases hc : crc = r.crc
    · rw [if_pos hc] at h
      cases h
      simp only [List.length_cons]
      omega
    · rw [if_neg hc] at h
      have := ih crc (j + 1) i h
      simp only [List.length_cons]
      omega

theorem FindROMByCRCInGame_bounds (Game : GameInfo) (crc i : Nat)
    (h : FindROMByCRCInGame Game crc = some i) : i < Game.ROM.length := by
  have := findROMIdx_bounds Game.ROM crc 0 i h
  omega

theorem getD_getElem? {α : Type} [Inhabited α] :
    ∀ (l : List α) (t : Nat), t < l.length → l[t]? = some (l.getD t default) := by
  intro l
  induction l with
  | nil => intro t h; simp at h
  | cons a rest ih =>
    intro t h
    cases t with
    | zero => simp
    | succ t =>
      simp only [List.length_cons] at h
      simpa using ih t (by omega)

theorem getElem?_some_getD {α : Type} [Inhabited α] :
    ∀ (l : List α) (t : Nat) (G : α), l[t]? = some G → t < l.length ∧ l.getD t default = G := by
  intro l
  induction l with
  | nil => intro t G h; simp at h
  | cons a rest ih =>
    intro t G h
    cases t with
    | zero =>
      simp at h
      simp [h]
    | succ t =>
      simp only [List.getElem?_cons_succ] at h
      have := ih t G h
      simp only [List.length_cons, List.getD_cons_succ]
      exact ⟨by omega, this.2⟩

theorem getD_mem {α : Type} [Inhabited α] :
    ∀ (l : List α) (t : Nat), t < l.length → l.getD t default ∈ l := by
  intro l
  induction l with
  | nil => intro t h; simp at h
  | cons a rest ih =>
    intro t h
    cases t with
    | zero => simp
    | succ t =>
      simp only [List.length_cons] at h
      simp only [List.getD_cons_succ, List.mem_cons]
      exact Or.inr (ih t (by omega))

theorem findGameIdx_bounds :
    ∀ (l : List GameInfo) (crc i g r : Nat), findGameIdx l crc i = some (g, r) →
      i ≤ g ∧ g - i < l.length ∧ FindROMByCRCInGame (l.getD (g - i) default) crc = some r := by
  intro l
  induction l with
  | nil => intro crc i g r h; simp [findGameIdx] at h
  | cons G rest ih =>
    intro crc i g r h
    rw [findGameIdx] at h
    cases hG : FindROMByCRCInGame G crc with
    | some j =>
      rw [hG] at h
      cases h
      refine ⟨Nat.le_refl _, by simp [List.length_cons], ?_⟩
      simpa [Nat.sub_self] using hG
    | none =>
      rw [hG] at h
      obtain ⟨h1, h2, h3⟩ := ih crc (i + 1) g r h
      refine ⟨by omega, by simp only [List.length_cons]; omega, ?_⟩
      have hgi : g - i = (g - (i + 1)) + 1 := by omega
      rw [hgi, List.getD_cons_succ]
      exact h3

theorem findGameIdx_none :
    ∀ (l : List GameInfo) (crc i : Nat), findGameIdx l crc i = none →
      ∀ off, off < l.length → FindROMByCRCInGame (l.getD off default) crc = none := by
  intro l
  induction l with
  | nil => intro crc i h off hoff; simp at hoff
  | cons G rest ih =>
    intro crc i h off hoff
    rw [findGameIdx] at h
    cases hG : FindROMByCRCInGame G crc with
    | some j => rw [hG] at h; cases h
    | none =>
      rw [hG] at h
      cases off with
      | zero => simpa using hG
      | succ off =>
        simp only [List.length_cons] at hoff
        rw [List.getD_cons_succ]
        exact ih crc (i + 1) h off (by omega)

theorem FindROMByCRC_bounds (GameList : List GameInfo) (TryGame : Option Nat) (crc g r : Nat)
    (h : FindROMByCRC GameList TryGame crc = some (g, r)) :
    g < GameList.length ∧ FindROMByCRCInGame (GameList.getD g default) crc = some r := by
  have hscan : findGameIdx GameList crc 0 = some (g, r) →
      g < GameList.length ∧ FindROMByCRCInGame (GameList.getD g default) crc = some r := by
    intro hs
    obtain ⟨_, h2, h3⟩ := findGameIdx_bounds GameList crc 0 g r hs
    rw [Nat.sub_zero] at h2 h3
    exact ⟨h2, h3⟩
  match TryGame with
  | none => exact hscan h
  | some t =>
    rw [FindROMByCRC] at h
    cases hT : GameList[t]? with
    | none => rw [hT] at h; dsimp only at h; exact hscan h
    | some G =>
      rw [hT] at h
      dsimp only at h
      cases hG : FindROMByCRCInGame G crc with
      | none => rw [hG] at h; exact hscan h
      | some j =>
        rw [hG] at h
        cases h
        obtain ⟨hlt, hD⟩ := getElem?_some_getD GameList _ G hT
        rw [hD]
        exact ⟨hlt, hG⟩

theorem FindROMByCRC_rom_lt (GameList : List GameInfo) (TryGame : Option Nat) (crc g r : Nat)
    (h : FindROMByCRC GameList TryGame crc = some (g, r)) :
    r < (GameList.getD g default).ROM.length :=
  FindROMByCRCInGame_bounds _ crc r (FindROMByCRC_bounds GameList TryGame crc g r h).2

theorem FindROMByCRC_none_bias (GameList : List GameInfo) (t crc : Nat)
    (h : FindROMByCRC GameList none crc = none) :
    FindROMByCRC GameList (some t) crc = none := by
  rw [FindROMByCRC] at h
  rw [FindROMByCRC]
  cases hT : GameList[t]? with
  | none => exact h
  | some G =>
    obtain ⟨hlt, hD⟩ := getElem?_some_getD GameList t G hT
    have hnone := findGameIdx_none GameList crc 0 h t hlt
    rw [hD] at hnone
    dsimp only
    rw [hnone]
    exact h

theorem FindROMByCRC_bias_self (GameList : List GameInfo) (g j crc : Nat)
    (h : FindROMByCRC GameList none crc = some (g, j)) :
    FindROMByCRC GameList (some g) crc = some (g, j) := by
  rw [FindROMByCRC] at h
  obtain ⟨hlt, hG⟩ := by
    have hs := findGameIdx_bounds GameList crc 0 g j h
    rw [Nat.sub_zero] at hs
    exact And.intro hs.2.1 hs.2.2
  rw [FindROMByCRC, getD_getElem? GameList g hlt]
  dsimp only
  rw [hG]

/-- Set one presence flag (`romsFound[j] = 1`). -/
def markFound (f : Nat → Bool) (j : Nat) : Nat → Bool :=
  fun i => if i = j then true else f i

/-- The state threaded through the first (scan/identification) pass of
`LoadROMSetFromZIPFile`: the identified game (`Game`, an index into the
catalog), the `romsFound` flags, the diagnostics emitted so far, and the
`multipleGameError` once-only latch. -/
structure ScanState where
  game : Option Nat
  romsFound : Nat → Bool
  log : List Diag
  multipleGameError : Bool

/-- The body of the first archive loop of `LoadROMSetFromZIPFile`: identify
the entry by CRC (biased towards the already-identified game), identify the
game on first match, warn once about a second game, and mark the ROM of the entry
as found when it belongs to the identified game. -/
def scanStep (GameList : List GameInfo) (st : ScanState) (e : ZipEntry) : ScanState :=
  if e.infoOk = false then st else
  match FindROMByCRC GameList st.game e.crc with
  | none => st
  | some (curGame, romIdx) =>
    let st1 :=
      match st.game with
      | none => { st with game := some curGame }
      | some g =>
        if curGame ≠ g ∧ st.multipleGameError = false then
          { st with log := st.log ++ [Diag.contamination], multipleGameError := true }
        else st
    if st1.game = some curGame then { st1 with romsFound := markFound st1.romsFound romIdx }
    else st1

/-- The initial scan state (`Game = NULL`, `romsFound` zeroed). -/
def initScan : ScanState :=
  { game := none, romsFound := fun _ => false, log := [], multipleGameError := false }

/-- The whole first pass over the archive entries. -/
def scanPass (GameList : List GameInfo) (entries : List ZipEntry) : ScanState :=
  entries.foldl (scanStep GameList) initScan

/-- The scratch buffer after `unzReadCurrentFile`: the decompressed bytes of
the entry (indices past the data read are 0 here; the C scratch buffer holds
stale bytes there, and no claim depends on them). -/
def bufOf (data : List Nat) : Buf := fun i => data.getD i 0

/-- The mapping loop of `LoadROM` (`for (i = 0; Map[i].region != NULL; i++)`):
find the first map entry whose region matches and run the placement loop on
its buffer.  Returns the success flag and the updated map; `none` means the
placement loop diverged (`groupSize = 0` with `fileSize > 0`).  When no
region matches, the result is `FAIL` in strict mode and `OKAY` otherwise. -/
def mapROM (rom : ROMInfo) (buf : Buf) (loadAll : Bool) : ROMMap → Option (Bool × ROMMap)
  | [] => some (!loadAll, [])
  | (reg, ptr) :: rest =>
    if reg = rom.region then
      match placeROM (rom.fileSize + 1) ptr buf rom.offset 0 rom.fileSize rom.groupSize
          rom.stride with
      | some d => some (true, (reg, d) :: rest)
      | none => none
    else
      match mapROM rom buf loadAll rest with
      | some (ok, rest2) => some (ok, (reg, ptr) :: rest2)
      | none => none

/-- Embedding of `LoadROM(buf, bufSize, Map, ROM, zf, zipFile, loadAll)`: check the
metadata size of the entry against the catalog, read it, optionally warn about a
reader CRC error, byte-swap if required, and place it through the region
map.  Returns `(ok, new map, diagnostics)`; `none` models a diverging
placement loop. -/
def LoadROM (Map : ROMMap) (rom : ROMInfo) (e : ZipEntry) (loadAll : Bool) :
    Option (Bool × ROMMap × List Diag) :=
  if e.size ≠ rom.fileSize then some (false, Map, [Diag.sizeMismatch rom.file])
  else if e.data.length ≠ rom.fileSize then some (false, Map, [Diag.readError rom.file])
  else
    let warn : List Diag := if e.crcErr then [Diag.crcWarning rom.file] else []
    let buf := if rom.byteSwap then ByteSwap (bufOf e.data) rom.fileSize else bufOf e.data
    match mapROM rom buf loadAll Map with
    | some (ok, Map2) =>
      if ok then some (true, Map2, warn)
      else some (false, Map2, warn ++ [Diag.noMapping rom.region])
    | none => none

/-- The state threaded through the second (extraction) pass: the per-ROM
"placed" flags (the reused `romsFound` array), the region map, and the
diagnostics of this pass. -/
structure ExtractState where
  romsFound : Nat → Bool
  Map : ROMMap
  log : List Diag

/-- The body of the second archive loop: re-identify the entry (bias is now
always the identified game) and, when it belongs to that game, run `LoadROM`
on it, marking it as placed on success. -/
def extractStep (GameList : List GameInfo) (Game : GameInfo) (gIdx : Nat) (loadAll : Bool)
    (st : ExtractState) (e : ZipEntry) : Option ExtractState :=
  if e.infoOk = false then some st else
  match FindROMByCRC GameList (some gIdx) e.crc with
  | none => some st
  | some (curGame, romIdx) =>
    if curGame = gIdx then
      match LoadROM st.Map (Game.ROM.getD romIdx default) e loadAll with
      | some (ok, Map2, diags) =>
        some { romsFound := if ok then markFound st.romsFound romIdx else st.romsFound
               Map := Map2
               log := st.log ++ diags }
      | none => none
    else some st

/-- The whole second pass, with `romsFound` re-zeroed (`memset`). -/
def extractPass (GameList : List GameInfo) (Game : GameInfo) (gIdx : Nat) (loadAll : Bool)
    (Map0 : ROMMap) (entries : List ZipEntry) : Option ExtractState :=
  entries.foldlM (extractStep GameList Game gIdx loadAll) ⟨fun _ => false, Map0, []⟩

/-- The value `numROMs`: the length of the ROM list of the identified game. -/
def numROMs (GameList : List GameInfo) (g : Nat) : Nat :=
  (GameList.getD g default).ROM.length

/-- The ROM indices of game `g` whose flag is still clear — the ROMs the
completeness loops report as missing / failed to load. -/
def missingOf (GameList : List GameInfo) (g : Nat) (found : Nat → Bool) : List Nat :=
  (List.range (numROMs GameList g)).filter (fun i => !found i)

/-- Embedding of `LoadROMSetFromZIPFile(Map, GameList, zipFile, loadAll)`: the full load.
The archive is given as its entry list; opening and enumeration succeed
(failed opens abort before any of the logic modelled here).  The result is
`(returned game, final region map, diagnostics)`, where the returned game is
`some` index into `GameList` exactly when the C function returns a non-NULL
`GameInfo` pointer; the outer `Option` is `none` when a placement loop
diverges (the C call never returns). -/
def LoadROMSetFromZIPFile (Map : ROMMap) (GameList : List GameInfo) (entries : List ZipEntry)
    (loadAll : Bool) : Option (Option Nat × ROMMap × List Diag) :=
  let scan := scanPass GameList entries
  match scan.game with
  | none => some (none, Map, scan.log ++ [Diag.unidentified])
  | some gIdx =>
    if (missingOf GameList gIdx scan.romsFound).isEmpty then
      match extractPass GameList (GameList.getD gIdx default) gIdx loadAll Map entries with
      | none => none
      | some ex =>
        if loadAll then
          if (missingOf GameList gIdx ex.romsFound).isEmpty then
            some (some gIdx, ex.Map, scan.log ++ ex.log)
          else
            some (none, ex.Map,
              scan.log ++ ex.log ++ (missingOf GameList gIdx ex.romsFound).map Diag.failedToLoad)
        else some (some gIdx, ex.Map, scan.log ++ ex.log)
    else some (none, Map, scan.log ++ (missingOf GameList gIdx scan.romsFound).map Diag.missingImage)

/-- The game identified by the scan pass. -/
def identifiedGame (GameList : List GameInfo) (entries : List ZipEntry) : Option Nat :=
  (scanPass GameList entries).game

/-- The ROMs of the identified game that the scan pass did not find. -/
def missingImages (GameList : List GameInfo) (entries : List ZipEntry) : List Nat :=
  match identifiedGame GameList entries with
  | none => []
  | some g => missingOf GameList g (scanPass GameList entries).romsFound

/-- The game returned by a load (`none` inside = NULL). -/
def loadResult (Map : ROMMap) (GameList : List GameInfo) (entries : List ZipEntry)
    (loadAll : Bool) : Option (Option Nat) :=
  (LoadROMSetFromZIPFile Map GameList entries loadAll).map (fun t => t.1)

/-- The final contents of the caller-owned region buffers after a load. -/
def loadMap (Map : ROMMap) (GameList : List GameInfo) (entries : List ZipEntry)
    (loadAll : Bool) : Option ROMMap :=
  (LoadROMSetFromZIPFile Map GameList entries loadAll).map (fun t => t.2.1)

/-- The diagnostics emitted by a load. -/
def loadLog (Map : ROMMap) (GameList : List GameInfo) (entries : List ZipEntry)
    (loadAll : Bool) : Option (List Diag) :=
  (LoadROMSetFromZIPFile Map GameList entries loadAll).map (fun t => t.2.2)

/-! ## Properties of the scan pass -/

theorem scanStep_game (GameList : List GameInfo) (st : ScanState) (e : ZipEntry) :
    (scanStep GameList st e).game = st.game ∨
    (st.game = none ∧ ∃ p, FindROMByCRC GameList none e.crc = some p ∧
      (scanStep GameList st e).game = some p.1) := by
  obtain ⟨sg, sf, sl, sm⟩ := st
  by_cases hinfo : e.infoOk = false
  · left; rw [scanStep, if_pos hinfo]
  · rw [scanStep, if_neg hinfo]
    cases hF : FindROMByCRC GameList sg e.crc with
    | none => left; rfl
    | some p =>
      obtain ⟨c, j⟩ := p
      cases sg with
      | none =>
        right
        refine ⟨rfl, (c, j), hF, ?_⟩
        simp
      | some g =>
        left
        dsimp only
        by_cases hc : c ≠ g ∧ sm = false
        · rw [if_pos hc]
          dsimp only
          split <;> rfl
        · rw [if_neg hc]
          dsimp only
          split <;> rfl

theorem scanStep_game_some (GameList : List GameInfo) (st : ScanState) (e : ZipEntry) (g : Nat)
    (h : st.game = some g) : (scanStep GameList st e).game = some g := by
  rcases scanStep_game GameList st e with h1 | ⟨h1, _⟩
  · rw [h1, h]
  · rw [h] at h1; cases h1

theorem scanFold_game_some (GameList : List GameInfo) :
    ∀ (es : List ZipEntry) (st : ScanState) (g : Nat), st.game = some g →
      (es.foldl (scanStep GameList) st).game = some g := by
  intro es
  induction es with
  | nil => intro st g h; exact h
  | cons e rest ih =>
    intro st g h
    exact ih (scanStep GameList st e) g (scanStep_game_some GameList st e g h)

theorem scanFold_game_bound (GameList : List GameInfo) :
    ∀ (es : List ZipEntry) (st : ScanState),
      (∀ g, st.game = some g → g < GameList.length) →
      ∀ g, (es.foldl (scanStep GameList) st).game = some g → g < GameList.length := by
  intro es
  induction es with
  | nil => intro st hst g h; exact hst g h
  | cons e rest ih =>
    intro st hst g h
    refine ih (scanStep GameList st e) ?_ g h
    intro g' hg'
    rcases scanStep_game GameList st e with h1 | ⟨_, p, hp, h2⟩
    · exact hst g' (h1 ▸ hg')
    · rw [h2] at hg'
      cases hg'
      obtain ⟨a, b⟩ := p
      exact (FindROMByCRC_bounds GameList none e.crc a b hp).1

theorem identifiedGame_lt (GameList : List GameInfo) (entries : List ZipEntry) (g : Nat)
    (h : identifiedGame GameList entries = some g) : g < GameList.length := by
  refine scanFold_game_bound GameList entries initScan ?_ g h
  intro g' hg'
  cases hg'

/-- C2: if identification fails or some expected image of the identified
title is missing from the archive, the load returns NULL and every
caller-owned destination buffer is returned exactly as it was passed in (the
scan pass never writes to the region map). -/
theorem no_write_before_complete (Map : ROMMap) (GameList : List GameInfo)
    (entries : List ZipEntry) (loadAll : Bool)
    (h : identifiedGame GameList entries = none ∨ missingImages GameList entries ≠ []) :
    loadResult Map GameList entries loadAll = some none ∧
    loadMap Map GameList entries loadAll = some Map := by
  rw [loadResult, loadMap, LoadROMSetFromZIPFile]
  cases hg : (scanPass GameList entries).game with
  | none => simp
  | some g =>
    have hmiss : missingImages GameList entries ≠ [] := by
      rcases h with h | h
      · rw [identifiedGame, hg] at h; cases h
      · exact h
    rw [missingImages, identifiedGame, hg] at hmiss
    have : (missingOf GameList g (scanPass GameList entries).romsFound).isEmpty = false := by
      cases hempty : missingOf GameList g (scanPass GameList entries).romsFound with
      | nil => exact absurd hempty hmiss
      | cons a l => simp [hempty]
    simp [this]

theorem no_write_before_complete_witness :
    (identifiedGame [] [] = none ∨ missingImages [] [] ≠ []) ∧
    loadResult [] [] [] false = some none ∧ loadMap [] [] [] false = some [] :=
  ⟨Or.inl rfl, no_write_before_complete [] [] [] false (Or.inl rfl)⟩

/-- C10: a non-NULL result of `LoadROMSetFromZIPFile` is always an entry of
the supplied catalog: the returned index is in range, and the game it denotes
is a member of `GameList`. -/
theorem load_result_in_catalog (Map : ROMMap) (GameList : List GameInfo)
    (entries : List ZipEntry) (loadAll : Bool) (g : Nat)
    (h : loadResult Map GameList entries loadAll = some (some g)) :
    g < GameList.length ∧ GameList.getD g default ∈ GameList := by
  have hid : identifiedGame GameList entries = some g := by
    rw [loadResult, LoadROMSetFromZIPFile] at h
    cases hg : (scanPass GameList entries).game with
    | none => rw [hg] at h; simp at h
    | some gIdx =>
      rw [hg] at h
      dsimp only at h
      rw [identifiedGame, hg]
      by_cases hm : (missingOf GameList gIdx (scanPass GameList entries).romsFound).isEmpty
      · rw [if_pos hm] at h
        cases hex : extractPass GameList (GameList.getD gIdx default) gIdx loadAll Map entries with
        | none => rw [hex] at h; simp at h
        | some ex =>
          rw [hex] at h
          cases loadAll with
          | false => simp at h; rw [h]
          | true =>
            by_cases hm2 : (missingOf GameList gIdx ex.romsFound).isEmpty
            · simp [hm2] at h; rw [h]
            · simp [hm2] at h
      · rw [if_neg hm] at h
        simp at h
  have hlt := identifiedGame_lt GameList entries g hid
  exact ⟨hlt, getD_mem GameList g hlt⟩

def w1ROM : ROMInfo :=
  { region := "CROM", offset := 0, fileSize := 2, crc := 11, stride := 1, byteSwap := false,
    groupSize := 1, file := "w1.bin" }

def w1Game : GameInfo := { id := "w1", title := "Witness One", ROM := [w1ROM] }

def w1Map : ROMMap := [("CROM", fun _ => 0)]

def w1Entry : ZipEntry := { infoOk := true, crc := 11, size := 2, data := [1, 2], crcErr := false }

theorem load_result_in_catalog_witness :
    loadResult w1Map [w1Game] [w1Entry] true = some (some 0) ∧
    0 < [w1Game].length ∧ [w1Game].getD 0 default ∈ [w1Game] :=
  ⟨by decide, load_result_in_catalog w1Map [w1Game] [w1Entry] true 0 (by decide)⟩

/-! ## The scan log holds only contamination warnings -/

theorem scanStep_log (GameList : List GameInfo) (st : ScanState) (e : ZipEntry) :
    (scanStep GameList st e).log = st.log ∨
    (scanStep GameList st e).log = st.log ++ [Diag.contamination] := by
  obtain ⟨sg, sf, sl, sm⟩ := st
  by_cases hinfo : e.infoOk = false
  · left; rw [scanStep, if_pos hinfo]
  · rw [scanStep, if_neg hinfo]
    cases hF : FindROMByCRC GameList sg e.crc with
    | none => left; rfl
    | some p =>
      obtain ⟨c, j⟩ := p
      cases sg with
      | none => left; simp
      | some g =>
        dsimp only
        by_cases hc : c ≠ g ∧ sm = false
        · right
          rw [if_pos hc]
          dsimp only
          split <;> rfl
        · left
          rw [if_neg hc]
          dsimp only
          split <;> rfl

theorem scanFold_log_contamination (GameList : List GameInfo) :
    ∀ (es : List ZipEntry) (st : ScanState),
      (∀ d ∈ st.log, d = Diag.contamination) →
      ∀ d ∈ (es.foldl (scanStep GameList) st).log, d = Diag.contamination := by
  intro es
  induction es with
  | nil => intro st h; exact h
  | cons e rest ih =>
    intro st h
    refine ih (scanStep GameList st e) ?_
    intro d hd
    rcases scanStep_log GameList st e with h1 | h1 <;> rw [h1] at hd
    · exact h d hd
    · rcases List.mem_append.mp hd with hd | hd
      · exact h d hd
      · simpa using hd

theorem scanPass_log_count_missing (GameList : List GameInfo) (entries : List ZipEntry) (i : Nat) :
    (scanPass GameList entries).log.count (Diag.missingImage i) = 0 := by
  rw [List.count_eq_zero]
  intro hmem
  have := scanFold_log_contamination GameList entries initScan (by intro d hd; cases hd)
    (Diag.missingImage i) hmem
  cases this

/-- C5: when a title is identified but at least one of its expected images
was not found by the scan, the load returns NULL and the log reports every
individual missing image exactly once (and reports no image that was found). -/
theorem missing_images_reported (Map : ROMMap) (GameList : List GameInfo)
    (entries : List ZipEntry) (loadAll : Bool) (g : Nat)
    (hg : identifiedGame GameList entries = some g)
    (hmiss : missingImages GameList entries ≠ []) :
    loadResult Map GameList entries loadAll = some none ∧
    ∃ log, loadLog Map GameList entries loadAll = some log ∧
      (∀ i, i < numROMs GameList g → (scanPass GameList entries).romsFound i = false →
        log.count (Diag.missingImage i) = 1) ∧
      (∀ i, i < numROMs GameList g → (scanPass GameList entries).romsFound i = true →
        log.count (Diag.missingImage i) = 0) := by
  rw [identifiedGame] at hg
  rw [missingImages, identifiedGame, hg] at hmiss
  have hne : (missingOf GameList g (scanPass GameList entries).romsFound).isEmpty = false := by
    cases hempty : missingOf GameList g (scanPass GameList entries).romsFound with
    | nil => exact absurd hempty hmiss
    | cons a l => simp [hempty]
  have hout : LoadROMSetFromZIPFile Map GameList entries loadAll =
      some (none, Map, (scanPass GameList entries).log ++
        (missingOf GameList g (scanPass GameList entries).romsFound).map Diag.missingImage) := by
    rw [LoadROMSetFromZIPFile, hg]
    dsimp only
    rw [hne]
    simp
  have hinj : Function.Injective Diag.missingImage := by
    intro a b hab
    cases hab
    rfl
  have hnodup : (missingOf GameList g (scanPass GameList entries).romsFound).Nodup :=
    (List.nodup_range _).filter _
  refine ⟨by rw [loadResult, hout]; rfl, _, by rw [loadLog, hout]; rfl, ?_, ?_⟩
  · intro i hlt hfound
    rw [List.count_append, scanPass_log_count_missing, Nat.zero_add,
      List.count_map_of_injective _ Diag.missingImage hinj]
    refine List.count_eq_one_of_mem hnodup ?_
    rw [missingOf, List.mem_filter, List.mem_range]
    exact ⟨hlt, by rw [hfound]; rfl⟩
  · intro i hlt hfound
    rw [List.count_append, scanPass_log_count_missing, Nat.zero_add,
      List.count_map_of_injective _ Diag.missingImage hinj]
    rw [List.count_eq_zero]
    rw [missingOf, List.mem_filter, List.mem_range]
    intro hc
    rw [hfound] at hc
    simpa using hc.2

def w2ROMa : ROMInfo :=
  { region := "CROM", offset := 0, fileSize := 2, crc := 21, stride := 1, byteSwap := false,
    groupSize := 1, file := "w2a.bin" }

def w2ROMb : ROMInfo :=
  { region := "CROM", offset := 2, fileSize := 2, crc := 22, stride := 1, byteSwap := false,
    groupSize := 1, file := "w2b.bin" }

def w2Game : GameInfo := { id := "w2", title := "Witness Two", ROM := [w2ROMa, w2ROMb] }

def w2Map : ROMMap := [("CROM", fun _ => 0)]

def w2Entry : ZipEntry := { infoOk := true, crc := 21, size := 2, data := [1, 2], crcErr := false }

theorem missing_images_reported_witness :
    identifiedGame [w2Game] [w2Entry] = some 0 ∧
    missingImages [w2Game] [w2Entry] ≠ [] ∧
    loadResult w2Map [w2Game] [w2Entry] true = some none ∧
    ∃ log, loadLog w2Map [w2Game] [w2Entry] true = some log ∧
      (∀ i, i < numROMs [w2Game] 0 → (scanPass [w2Game] [w2Entry]).romsFound i = false →
        log.count (Diag.missingImage i) = 1) ∧
      (∀ i, i < numROMs [w2Game] 0 → (scanPass [w2Game] [w2Entry]).romsFound i = true →
        log.count (Diag.missingImage i) = 0) :=
  ⟨by decide, by decide,
    missing_images_reported w2Map [w2Game] [w2Entry] true 0 (by decide) (by decide)⟩

/-! ## Size mismatches and the strict-mode completeness check -/

def c1ROM : ROMInfo :=
  { region := "CROM", offset := 0, fileSize := 4, crc := 31, stride := 1, byteSwap := false,
    groupSize := 1, file := "c1.bin" }

def c1Game : GameInfo := { id := "c1", title := "Counterexample One", ROM := [c1ROM] }

def c1Map : ROMMap := [("CROM", fun _ => 0)]

/-- An archive entry whose CRC matches `c1ROM` but whose uncompressed size
(3) differs from the expected size in the catalog (4). -/
def c1Entry : ZipEntry := { infoOk := true, crc := 31, size := 3, data := [1, 2, 3], crcErr := false }

/-- C1 counterexample: with `loadAll = FALSE`, an archive whose only entry
matches the identified title but has the wrong uncompressed length still
loads successfully — `LoadROMSetFromZIPFile` returns the title, not NULL, so
a size mismatch does not abort the load "regardless of whether strict mode is
requested". -/
theorem sizeMismatch_nonstrict_counterexample :
    identifiedGame [c1Game] [c1Entry] = some 0 ∧
    FindROMByCRC [c1Game] (some 0) c1Entry.crc = some (0, 0) ∧
    c1Entry.size ≠ (([c1Game].getD 0 default).ROM.getD 0 default).fileSize ∧
    loadResult c1Map [c1Game] [c1Entry] false = some (some 0) := by
  refine ⟨?_, ?_, ?_, ?_⟩ <;> decide

theorem extractFold_unfound (GameList : List GameInfo) (Game : GameInfo) (g r : Nat) :
    ∀ (es : List ZipEntry),
      (∀ e ∈ es, e.infoOk = true → FindROMByCRC GameList (some g) e.crc = some (g, r) →
        e.size ≠ (Game.ROM.getD r default).fileSize) →
      ∀ (st : ExtractState), st.romsFound r = false →
        ∀ ex, es.foldlM (extractStep GameList Game g true) st = some ex →
          ex.romsFound r = false := by
  intro es
  induction es with
  | nil =>
    intro _ st hst ex hex
    simp only [List.foldlM_nil] at hex
    cases hex
    exact hst
  | cons e rest ih =>
    intro hbad st hst ex hex
    simp only [List.foldlM_cons] at hex
    have hrest : ∀ e2 ∈ rest, e2.infoOk = true →
        FindROMByCRC GameList (some g) e2.crc = some (g, r) →
        e2.size ≠ (Game.ROM.getD r default).fileSize :=
      fun e2 h2 => hbad e2 (List.mem_cons_of_mem e h2)
    cases hstep : extractStep GameList Game g true st e with
    | none => rw [hstep] at hex; cases hex
    | some st2 =>
      rw [hstep] at hex
      refine ih hrest st2 ?_ ex hex
      rw [extractStep] at hstep
      by_cases hinfo : e.infoOk = false
      · rw [if_pos hinfo] at hstep
        cases hstep
        exact hst
      · rw [if_neg hinfo] at hstep
        cases hF : FindROMByCRC GameList (some g) e.crc with
        | none =>
          rw [hF] at hstep
          cases hstep
          exact hst
        | some p =>
          obtain ⟨c, j⟩ := p
          rw [hF] at hstep
          dsimp only at hstep
          by_cases hc : c = g
          · rw [if_pos hc] at hstep
            by_cases hj : j = r
            · -- this entry targets ROM `r`: its size is wrong, so `LoadROM` fails
              rw [hc, hj] at hF
              rw [hj] at hstep
              have hsz : e.size ≠ (Game.ROM.getD r default).fileSize :=
                hbad e (List.mem_cons_self e rest) (by revert hinfo; cases e.infoOk <;> simp) hF
              rw [LoadROM, if_pos hsz] at hstep
              cases hstep
              exact hst
            · cases hL : LoadROM st.Map (Game.ROM.getD j default) e true with
              | none => rw [hL] at hstep; cases hstep
              | some q =>
                obtain ⟨ok, M2, dg⟩ := q
                rw [hL] at hstep
                dsimp only at hstep
                cases hstep
                cases ok
                · exact hst
                · dsimp only
                  rw [if_pos rfl]
                  simp only [markFound]
                  rw [if_neg (Ne.symm hj)]
                  exact hst
          · rw [if_neg hc] at hstep
            cases hstep
            exact hst

/-- C1 amended: in strict mode (`loadAll = TRUE`), if every archive entry
matching a given expected image `r` of the identified title has an
uncompressed length different from the expected length in the catalog (and at
least one such entry exists), then the load does not return a title: it
returns NULL (or, if the placement loop of some other image diverges, never
returns).  Without strict mode the counterexample above shows the claim
fails. -/
theorem sizeMismatch_strict_aborts (Map : ROMMap) (GameList : List GameInfo)
    (entries : List ZipEntry) (g r : Nat)
    (hg : identifiedGame GameList entries = some g)
    (hmatch : entries.any
      (fun e => e.infoOk && (FindROMByCRC GameList (some g) e.crc == some (g, r))) = true)
    (hbad : ∀ e ∈ entries, e.infoOk = true →
      FindROMByCRC GameList (some g) e.crc = some (g, r) →
      e.size ≠ ((GameList.getD g default).ROM.getD r default).fileSize) :
    loadResult Map GameList entries true = none ∨
    loadResult Map GameList entries true = some none := by
  have hr : r < numROMs GameList g := by
    obtain ⟨e, _, hp⟩ := List.any_eq_true.mp hmatch
    simp only [Bool.and_eq_true, beq_iff_eq] at hp
    exact FindROMByCRC_rom_lt GameList (some g) e.crc g r hp.2
  rw [identifiedGame] at hg
  rw [loadResult, LoadROMSetFromZIPFile, hg]
  dsimp only
  by_cases hm : (missingOf GameList g (scanPass GameList entries).romsFound).isEmpty = true
  · rw [if_pos hm]
    cases hex : extractPass GameList (GameList.getD g default) g true Map entries with
    | none => left; rfl
    | some ex =>
      right
      have hfound : ex.romsFound r = false :=
        extractFold_unfound GameList (GameList.getD g default) g r entries hbad
          ⟨fun _ => false, Map, []⟩ rfl ex hex
      have hmem : r ∈ missingOf GameList g ex.romsFound := by
        rw [missingOf, List.mem_filter, List.mem_range]
        exact ⟨hr, by rw [hfound]; rfl⟩
      have hne : (missingOf GameList g ex.romsFound).isEmpty = false := by
        cases hempty : missingOf GameList g ex.romsFound with
        | nil => rw [hempty] at hmem; cases hmem
        | cons a l => simp [hempty]
      simp [hne]
  · rw [if_neg hm]
    right
    rfl

theorem sizeMismatch_strict_aborts_witness :
    identifiedGame [c1Game] [c1Entry] = some 0 ∧
    (loadResult c1Map [c1Game] [c1Entry] true = none ∨
      loadResult c1Map [c1Game] [c1Entry] true = some none) :=
  ⟨by decide,
    sizeMismatch_strict_aborts c1Map [c1Game] [c1Entry] 0 0 (by decide) (by decide) (by decide)⟩

/-! ## First-match identification and contamination warnings -/

/-- The game identified by the first archive entry that matches the catalog
(with the `TryGame` bias still `NULL`), if any. -/
def firstMatchGame (GameList : List GameInfo) : List ZipEntry → Option Nat
  | [] => none
  | e :: rest =>
    if e.infoOk then
      match FindROMByCRC GameList none e.crc with
      | some p => some p.1
      | none => firstMatchGame GameList rest
    else firstMatchGame GameList rest

/-- An entry that matches the catalog but belongs to a game other than the
identified game `g0` (the entries that trigger the contamination warning). -/
def isContaminating (GameList : List GameInfo) (g0 : Nat) (e : ZipEntry) : Bool :=
  e.infoOk &&
    match FindROMByCRC GameList (some g0) e.crc with
    | some p => p.1 != g0
    | none => false

/-- An entry that matches the catalog and belongs to the identified game
`g0` (the entries the extraction pass acts on). -/
def matchesGame (GameList : List GameInfo) (g0 : Nat) (e : ZipEntry) : Bool :=
  e.infoOk &&
    match FindROMByCRC GameList (some g0) e.crc with
    | some p => p.1 == g0
    | none => false

theorem scanFold_game_none (GameList : List GameInfo) :
    ∀ (es : List ZipEntry) (st : ScanState), st.game = none →
      (es.foldl (scanStep GameList) st).game = firstMatchGame GameList es := by
  intro es
  induction es with
  | nil => intro st h; exact h
  | cons e rest ih =>
    intro st hg
    obtain ⟨sg, sf, sl, sm⟩ := st
    cases hg
    rw [List.foldl_cons, firstMatchGame]
    by_cases hinfo : e.infoOk = false
    · rw [if_neg (by rw [hinfo]; simp), scanStep, if_pos hinfo]
      exact ih _ rfl
    · have hinfo2 : e.infoOk = true := by revert hinfo; cases e.infoOk <;> simp
      rw [if_pos (by rw [hinfo2])]
      cases hF : FindROMByCRC GameList none e.crc with
      | none =>
        rw [scanStep, if_neg hinfo]
        dsimp only
        rw [hF]
        exact ih _ rfl
      | some p =>
        obtain ⟨c, j⟩ := p
        have hstep : scanStep GameList ⟨none, sf, sl, sm⟩ e =
            ⟨some c, markFound sf j, sl, sm⟩ := by
          rw [scanStep, if_neg hinfo]
          dsimp only
          rw [hF]
          dsimp only
          rw [if_pos rfl]
        rw [hstep]
        exact scanFold_game_some GameList rest _ c rfl

theorem identifiedGame_eq_firstMatch (GameList : List GameInfo) (entries : List ZipEntry) :
    identifiedGame GameList entries = firstMatchGame GameList entries :=
  scanFold_game_none GameList entries initScan rfl

theorem firstMatchGame_lt (GameList : List GameInfo) :
    ∀ (es : List ZipEntry) (g0 : Nat), firstMatchGame GameList es = some g0 →
      g0 < GameList.length := by
  intro es
  induction es with
  | nil => intro g0 h; cases h
  | cons e rest ih =>
    intro g0 h
    rw [firstMatchGame] at h
    by_cases hinfo : e.infoOk = true
    · rw [if_pos (by rw [hinfo])] at h
      cases hF : FindROMByCRC GameList none e.crc with
      | none => rw [hF] at h; exact ih g0 h
      | some p =>
        obtain ⟨c, j⟩ := p
        rw [hF] at h
        cases h
        exact (FindROMByCRC_bounds GameList none e.crc _ j hF).1
    · rw [if_neg (by revert hinfo; cases e.infoOk <;> simp)] at h
      exact ih g0 h

theorem scan_count_post (GameList : List GameInfo) (g0 : Nat) :
    ∀ (es : List ZipEntry) (st : ScanState), st.game = some g0 →
      (es.foldl (scanStep GameList) st).log.count Diag.contamination =
        st.log.count Diag.contamination +
          (if st.multipleGameError then 0
           else if es.any (isContaminating GameList g0) then 1 else 0) := by
  intro es
  induction es with
  | nil =>
    intro st hg
    cases hm : st.multipleGameError <;> simp [hm]
  | cons e rest ih =>
    intro st hg
    obtain ⟨sg, sf, sl, sm⟩ := st
    cases hg
    rw [List.foldl_cons, List.any_cons]
    by_cases hinfo : e.infoOk = false
    · have hcont : isContaminating GameList g0 e = false := by
        rw [isContaminating, hinfo]
        simp
      rw [scanStep, if_pos hinfo, hcont, ih _ rfl]
      simp
    · have hinfo2 : e.infoOk = true := by revert hinfo; cases e.infoOk <;> simp
      cases hF : FindROMByCRC GameList (some g0) e.crc with
      | none =>
        have hcont : isContaminating GameList g0 e = false := by
          simp [isContaminating, hF]
        have hstep : scanStep GameList ⟨some g0, sf, sl, sm⟩ e = ⟨some g0, sf, sl, sm⟩ := by
          rw [scanStep, if_neg hinfo]
          dsimp only
          rw [hF]
        rw [hstep, hcont, ih _ rfl]
        simp
      | some p =>
        obtain ⟨c, j⟩ := p
        by_cases hc : c = g0
        · have hcont : isContaminating GameList g0 e = false := by
            simp [isContaminating, hF, hc]
          have hstep : scanStep GameList ⟨some g0, sf, sl, sm⟩ e =
              ⟨some g0, markFound sf j, sl, sm⟩ := by
            simp [scanStep, hinfo2, hF, hc]
          rw [hstep, hcont, ih _ rfl]
          simp
        · have hcont : isContaminating GameList g0 e = true := by
            simp [isContaminating, hF, hinfo2]
            exact hc
          cases hsm : sm with
          | true =>
            have hstep : scanStep GameList ⟨some g0, sf, sl, true⟩ e =
                ⟨some g0, sf, sl, true⟩ := by
              simp [scanStep, hinfo2, hF, Ne.symm hc]
            rw [hstep, ih _ rfl]
            simp
          | false =>
            have hstep : scanStep GameList ⟨some g0, sf, sl, false⟩ e =
                ⟨some g0, sf, sl ++ [Diag.contamination], true⟩ := by
              simp [scanStep, hinfo2, hF, hc, Ne.symm hc]
            rw [hstep, ih _ rfl]
            simp [hcont, List.count_append]


theorem scan_count_pre (GameList : List GameInfo) (g0 : Nat) (hlt : g0 < GameList.length) :
    ∀ (es : List ZipEntry) (st : ScanState), st.game = none → st.multipleGameError = false →
      firstMatchGame GameList es = some g0 →
      (es.foldl (scanStep GameList) st).log.count Diag.contamination =
        st.log.count Diag.contamination +
          (if es.any (isContaminating GameList g0) then 1 else 0) := by
  intro es
  induction es with
  | nil => intro st _ _ hfm; cases hfm
  | cons e rest ih =>
    intro st hg hm hfm
    obtain ⟨sg, sf, sl, sm⟩ := st
    cases hg
    dsimp only at hm
    cases hm
    rw [List.foldl_cons, List.any_cons, firstMatchGame] at *
    by_cases hinfo : e.infoOk = false
    · have hcont : isContaminating GameList g0 e = false := by
        rw [isContaminating, hinfo]
        simp
      rw [if_neg (by rw [hinfo]; simp)] at hfm
      rw [scanStep, if_pos hinfo, hcont, ih _ rfl rfl hfm]
      simp
    · have hinfo2 : e.infoOk = true := by revert hinfo; cases e.infoOk <;> simp
      rw [if_pos (by rw [hinfo2])] at hfm
      cases hF : FindROMByCRC GameList none e.crc with
      | none =>
        rw [hF] at hfm
        have hcont : isContaminating GameList g0 e = false := by
          simp [isContaminating, FindROMByCRC_none_bias GameList g0 e.crc hF]
        have hstep : scanStep GameList ⟨none, sf, sl, false⟩ e = ⟨none, sf, sl, false⟩ := by
          rw [scanStep, if_neg hinfo]
          dsimp only
          rw [hF]
        rw [hstep, hcont, ih _ rfl rfl hfm]
        simp
      | some p =>
        obtain ⟨c, j⟩ := p
        rw [hF] at hfm
        have hc : c = g0 := by
          cases hfm
          rfl
        have hbias : FindROMByCRC GameList (some g0) e.crc = some (g0, j) := by
          refine FindROMByCRC_bias_self GameList g0 j e.crc ?_
          rw [← hc]
          exact hF
        have hcont : isContaminating GameList g0 e = false := by
          simp [isContaminating, hbias]
        have hstep : scanStep GameList ⟨none, sf, sl, false⟩ e =
            ⟨some g0, markFound sf j, sl, false⟩ := by
          simp [scanStep, hinfo2, hF, hc]
        rw [hstep, hcont, scan_count_post GameList g0 rest _ rfl]
        simp

theorem extractStep_skip (GameList : List GameInfo) (Game : GameInfo) (g0 : Nat) (loadAll : Bool)
    (st : ExtractState) (e : ZipEntry) (h : matchesGame GameList g0 e = false) :
    extractStep GameList Game g0 loadAll st e = some st := by
  by_cases hinfo : e.infoOk = false
  · rw [extractStep, if_pos hinfo]
  · have hinfo2 : e.infoOk = true := by revert hinfo; cases e.infoOk <;> simp
    rw [matchesGame, hinfo2, Bool.true_and] at h
    rw [extractStep, if_neg hinfo]
    cases hF : FindROMByCRC GameList (some g0) e.crc with
    | none => rfl
    | some p =>
      obtain ⟨c, j⟩ := p
      rw [hF] at h
      dsimp only at h ⊢
      rw [if_neg (by simpa using h)]

theorem extractFold_filter (GameList : List GameInfo) (Game : GameInfo) (g0 : Nat)
    (loadAll : Bool) :
    ∀ (es : List ZipEntry) (st : ExtractState),
      es.foldlM (extractStep GameList Game g0 loadAll) st =
      (es.filter (matchesGame GameList g0)).foldlM (extractStep GameList Game g0 loadAll) st := by
  intro es
  induction es with
  | nil => intro st; rfl
  | cons e rest ih =>
    intro st
    cases hm : matchesGame GameList g0 e with
    | false =>
      rw [List.filter_cons_of_neg (by rw [hm]; simp), List.foldlM_cons,
        extractStep_skip GameList Game g0 loadAll st e hm]
      exact ih st
    | true =>
      rw [List.filter_cons_of_pos (by rw [hm]), List.foldlM_cons, List.foldlM_cons]
      cases hstep : extractStep GameList Game g0 loadAll st e with
      | none => rfl
      | some st2 =>
        dsimp only [Option.bind_eq_bind, Option.some_bind]
        exact ih st2

/-- C4: in an archive containing images of two or more distinct catalog
titles, the title of the first matching entry wins the identification (it is
never changed by later matches), exactly one contamination warning is
emitted no matter how many contaminating entries follow, and the extraction
pass is equivalent to running it on just the entries that belong to the
identified title — only images of that title are placed. -/
theorem first_match_wins (GameList : List GameInfo) (entries : List ZipEntry) (Map : ROMMap)
    (loadAll : Bool) (g0 : Nat)
    (hfm : firstMatchGame GameList entries = some g0)
    (hcont : entries.any (isContaminating GameList g0) = true) :
    identifiedGame GameList entries = some g0 ∧
    (scanPass GameList entries).log.count Diag.contamination = 1 ∧
    extractPass GameList (GameList.getD g0 default) g0 loadAll Map entries =
      extractPass GameList (GameList.getD g0 default) g0 loadAll Map
        (entries.filter (matchesGame GameList g0)) := by
  refine ⟨(identifiedGame_eq_firstMatch GameList entries).trans hfm, ?_,
    extractFold_filter GameList (GameList.getD g0 default) g0 loadAll entries _⟩
  have := scan_count_pre GameList g0 (firstMatchGame_lt GameList entries g0 hfm) entries
    initScan rfl rfl hfm
  rw [scanPass, this, hcont]
  rfl

def w4ROMa : ROMInfo :=
  { region := "CROM", offset := 0, fileSize := 2, crc := 41, stride := 1, byteSwap := false,
    groupSize := 1, file := "w4a.bin" }

def w4GameA : GameInfo := { id := "w4a", title := "Witness Four A", ROM := [w4ROMa] }

def w4ROMb : ROMInfo :=
  { region := "CROM", offset := 0, fileSize := 2, crc := 42, stride := 1, byteSwap := false,
    groupSize := 1, file := "w4b.bin" }

def w4GameB : GameInfo := { id := "w4b", title := "Witness Four B", ROM := [w4ROMb] }

def w4Map : ROMMap := [("CROM", fun _ => 0)]

def w4EntryA : ZipEntry := { infoOk := true, crc := 41, size := 2, data := [1, 2], crcErr := false }

def w4EntryB : ZipEntry := { infoOk := true, crc := 42, size := 2, data := [3, 4], crcErr := false }

theorem first_match_wins_witness :
    firstMatchGame [w4GameA, w4GameB] [w4EntryA, w4EntryB, w4EntryB] = some 0 ∧
    ([w4EntryA, w4EntryB, w4EntryB].any (isContaminating [w4GameA, w4GameB] 0) = true) ∧
    identifiedGame [w4GameA, w4GameB] [w4EntryA, w4EntryB, w4EntryB] = some 0 ∧
    (scanPass [w4GameA, w4GameB] [w4EntryA, w4EntryB, w4EntryB]).log.count Diag.contamination
      = 1 ∧
    extractPass [w4GameA, w4GameB] ([w4GameA, w4GameB].getD 0 default) 0 true w4Map
        [w4EntryA, w4EntryB, w4EntryB] =
      extractPass [w4GameA, w4GameB] ([w4GameA, w4GameB].getD 0 default) 0 true w4Map
        ([w4EntryA, w4EntryB, w4EntryB].filter (matchesGame [w4GameA, w4GameB] 0)) := by
  refine ⟨by decide, by decide, ?_⟩
  have h := first_match_wins [w4GameA, w4GameB] [w4EntryA, w4EntryB, w4EntryB] w4Map true 0
    (by decide) (by decide)
  exact ⟨h.1, h.2.1, h.2.2⟩

end ROMLoad
